import Mathlib

/-!
Verification of the dotfiles-visualizer deployment-resolution core.

The TypeScript sources are shallowly embedded over `Str := List Char`
(JavaScript strings), with JavaScript regular-expression matching for the
handful of concrete patterns used by the parsers implemented as dedicated
scanning functions.  Definitions keep the source file and method names:
`FileMapper`, `IgnoreParser`, `TemplateParser`, the `GET /api/files` loop
(`FilesRoute`) and the `POST /api/simulate` loop (`SimulateRoute`).
-/

/-- JavaScript strings are modelled as lists of characters. -/
abbrev Str := List Char

/-- Embed a Lean string literal into the model. -/
def str (s : String) : Str := s.data

/-- ASCII whitespace, as recognised by the JavaScript regex class and
`String.prototype.trim` on the ASCII inputs this program handles. -/
def isWs (c : Char) : Bool :=
  c = ' ' ∨ c = '\t' ∨ c = '\n' ∨ c = '\r'

/-- A JavaScript word character (regex class in bracket form), `[A-Za-z0-9_]`. -/
def isWordChar (c : Char) : Bool :=
  (('a' ≤ c ∧ c ≤ 'z') ∨ ('A' ≤ c ∧ c ≤ 'Z') ∨ ('0' ≤ c ∧ c ≤ '9') ∨ c = '_')

/-- The term `startsWithS pat s` models `s.startsWith(pat)`. -/
def startsWithS : Str → Str → Bool
  | [], _ => true
  | _ :: _, [] => false
  | c :: cs, d :: ds => if c = d then startsWithS cs ds else false

/-- The term `endsWithS pat s` models `s.endsWith(pat)`. -/
def endsWithS (pat s : Str) : Bool :=
  startsWithS pat.reverse s.reverse

/-- The term `strContains s sub` models `s.includes(sub)`. -/
def strContains : Str → Str → Bool
  | s, sub =>
    if startsWithS sub s then true
    else
      match s with
      | [] => false
      | _ :: rest => strContains rest sub

/-- Remove trailing whitespace. -/
def trimRight (s : Str) : Str :=
  ((s.reverse).dropWhile isWs).reverse

/-- The term `trim s` models `s.trim()`. -/
def trim (s : Str) : Str :=
  (trimRight s).dropWhile isWs

/-- The term `splitOnChar c s` models `s.split(c)` for a one-character separator. -/
def splitOnChar (c : Char) : Str → List Str
  | [] => [[]]
  | d :: rest =>
    match splitOnChar c rest with
    | [] => [[]]
    | p :: ps => if d = c then [] :: p :: ps else (d :: p) :: ps

/-- The term `intercalateChar c parts` models `parts.join(c)`. -/
def intercalateChar (c : Char) : List Str → Str
  | [] => []
  | [p] => p
  | p :: q :: rest => p ++ c :: intercalateChar c (q :: rest)

/-- The term `elemStr x l` models `l.includes(x)` for an array of strings. -/
def elemStr (x : Str) : List Str → Bool
  | [] => false
  | y :: ys => if x = y then true else elemStr x ys

/-- Fuel-driven worker for `replaceAll`; the fuel only forces termination and
`s.length` steps always suffice. -/
def replaceAllF (sub repl : Str) : Nat → Str → Str
  | 0, s => s
  | _ + 1, [] => []
  | fuel + 1, c :: rest =>
    if startsWithS sub (c :: rest) then
      repl ++ replaceAllF sub repl fuel ((c :: rest).drop sub.length)
    else
      c :: replaceAllF sub repl fuel rest

/-- The term `replaceAll sub repl s` models `s.replace(/sub/g, repl)` for a literal
pattern `sub`: left-to-right, non-overlapping, resuming after each
replacement. -/
def replaceAll (sub repl s : Str) : Str :=
  replaceAllF sub repl s.length s

/-- Expect the literal `lit` at the start of `s` and return the rest. -/
def stripLit (lit s : Str) : Option Str :=
  if startsWithS lit s then some (s.drop lit.length) else none

/-- Match `\s+` at the start of `s` (maximal munch; in every pattern of this
program the following literal is never whitespace, so this is exactly the
backtracking regex semantics). -/
def wsPlus : Str → Option Str
  | [] => none
  | c :: rest => if isWs c then some (rest.dropWhile isWs) else none

/-- Match `(\w+)` at the start of `s` (maximal munch; in every pattern of this
program the following literal is never a word character). Returns the capture
and the rest. -/
def takeWord1 (s : Str) : Option (Str × Str) :=
  let w := s.takeWhile isWordChar
  if w.isEmpty then none else some (w, s.dropWhile isWordChar)

/-- Try an anchored matcher at every start position, left to right: the
unanchored leftmost-match search of JavaScript `String.prototype.match`. -/
def scanFirst {α : Type} (f : Str → Option α) : Str → Option α
  | [] => f []
  | c :: rest =>
    match f (c :: rest) with
    | some r => some r
    | none => scanFirst f rest

/-! ## Data model (src/lib/types.ts) -/

/-- Extra module sub-property values: the closed union modelling the dynamic
property bag on a module record (boolean, string or number). -/
inductive PropVal where
  | b (v : Bool)
  | s (v : Str)
  | n (v : Int)
deriving DecidableEq

/-- JavaScript truthiness of a property value. -/
def PropVal.truthy : PropVal → Bool
  | .b v => v
  | .s v => !v.isEmpty
  | .n v => v ≠ 0

/-- A module-state record (a value of the `modules` map): the `enabled` flag plus the extra named
sub-properties (such as `zsh_extras`). -/
structure ModuleState where
  enabled : Bool
  props : List (Str × PropVal)
deriving DecidableEq

/-- The `data` field of the configuration. The module map is an association
list keyed by module name; JavaScript objects have unique keys, so lookups
take the first match. -/
structure ConfigData where
  gitUserName : Str
  gitUserEmail : Str
  windows : Bool
  modules : List (Str × ModuleState)
deriving DecidableEq

/-- The parsed `.chezmoi.yaml` configuration. -/
structure DotfilesConfig where
  data : ConfigData
deriving DecidableEq

/-- Association-list lookup, first match: `config.data.modules[name]`. -/
def lookupModule (config : DotfilesConfig) (name : Str) : Option ModuleState :=
  go config.data.modules
where
  go : List (Str × ModuleState) → Option ModuleState
    | [] => none
    | (k, m) :: rest => if k = name then some m else go rest

/-- Truthiness of `config.data.modules[name]?.enabled`: false when the module
is absent. -/
def moduleEnabled (config : DotfilesConfig) (name : Str) : Bool :=
  match lookupModule config name with
  | some m => m.enabled
  | none => false

/-- JavaScript property access `module[prop]` on a module record: `enabled`
reaches the flag, anything else the extra-property bag. -/
def getProp (m : ModuleState) (prop : Str) : Option PropVal :=
  if prop = str "enabled" then some (.b m.enabled)
  else go m.props
where
  go : List (Str × PropVal) → Option PropVal
    | [] => none
    | (k, v) :: rest => if k = prop then some v else go rest

/-- Truthiness of `module[prop]` with absent properties falsy. -/
def propTruthy (m : ModuleState) (prop : Str) : Bool :=
  match getProp m prop with
  | some v => v.truthy
  | none => false

/-- A resolved deployed file (interface `FileMapping`). -/
structure FileMapping where
  sourcePath : Str
  deployPath : Str
  isTemplate : Bool
  isExecutable : Bool
  requiredModules : List Str
  platforms : List Str
deriving DecidableEq

/-! ## Regular-expression scanners for the condition grammar

Each function below is the anchored-at-start matcher for one concrete
regex literal of the sources; `scanFirst` turns it into the unanchored
leftmost search performed by `String.prototype.match`.  For each of these
patterns maximal munch coincides with the backtracking semantics because
no character class in them can consume the literal that follows it. -/

/-- Anchored matcher for `eq\s+\.chezmoi\.os\s+"(\w+)"`. -/
def tryEqChezmoiOsAt (s : Str) : Option Str := do
  let s ← stripLit (str "eq") s
  let s ← wsPlus s
  let s ← stripLit (str ".chezmoi.os") s
  let s ← wsPlus s
  let s ← stripLit (str "\"") s
  let (w, s) ← takeWord1 s
  let _ ← stripLit (str "\"") s
  pure w

/-- Leftmost match of `eq\s+\.chezmoi\.os\s+"(\w+)"`, returning the captured
platform name. -/
def matchEqChezmoiOs (s : Str) : Option Str :=
  scanFirst tryEqChezmoiOsAt s

/-- Anchored matcher for `\.modules\.(\w+)\.enabled`. -/
def tryModulesEnabledAt (s : Str) : Option Str := do
  let s ← stripLit (str ".modules.") s
  let (m, s) ← takeWord1 s
  let _ ← stripLit (str ".enabled") s
  pure m

/-- Leftmost match of `\.modules\.(\w+)\.enabled`. -/
def matchModulesEnabled (s : Str) : Option Str :=
  scanFirst tryModulesEnabledAt s

/-- Anchored matcher for `\.modules\.(\w+)\.(\w+)`. -/
def tryModulesPropAt (s : Str) : Option (Str × Str) := do
  let s ← stripLit (str ".modules.") s
  let (m, s) ← takeWord1 s
  let s ← stripLit (str ".") s
  let (p, _) ← takeWord1 s
  pure (m, p)

/-- Leftmost match of `\.modules\.(\w+)\.(\w+)`. -/
def matchModulesProp (s : Str) : Option (Str × Str) :=
  scanFirst tryModulesPropAt s

/-- Anchored matcher for `not\s+\.modules\.(\w+)\.enabled`. -/
def tryNotModulesEnabledAt (s : Str) : Option Str := do
  let s ← stripLit (str "not") s
  let s ← wsPlus s
  let s ← stripLit (str ".modules.") s
  let (m, s) ← takeWord1 s
  let _ ← stripLit (str ".enabled") s
  pure m

/-- Leftmost match of `not\s+\.modules\.(\w+)\.enabled`. -/
def matchNotModulesEnabled (s : Str) : Option Str :=
  scanFirst tryNotModulesEnabledAt s

/-- Anchored matcher for `not\s+\.modules\.(\w+)\.(\w+)`. -/
def tryNotModulesPropAt (s : Str) : Option (Str × Str) := do
  let s ← stripLit (str "not") s
  let s ← wsPlus s
  let s ← stripLit (str ".modules.") s
  let (m, s) ← takeWord1 s
  let s ← stripLit (str ".") s
  let (p, _) ← takeWord1 s
  pure (m, p)

/-- Leftmost match of `not\s+\.modules\.(\w+)\.(\w+)`. -/
def matchNotModulesProp (s : Str) : Option (Str × Str) :=
  scanFirst tryNotModulesPropAt s

/-! ## Glob-pattern compilation and matching

`FileMapper.shouldIgnore` and `IgnoreParser.shouldIgnore` both compile a glob
pattern through the same chain of global string replacements and then test the
resulting regular expression; `FileMapper` anchors both ends, `IgnoreParser`
anchors only the start.  The regexes that the chain can produce consist of
literal characters, escaped characters, the class `[^/]`, and the `*`
quantifier; patterns containing other regex metacharacters are modelled as
failing to compile, which the sources catch and treat as non-matching. -/

/-- One regex atom of the compiled pattern language. -/
inductive RAtom where
  | lit (c : Char)
  | nonSlash
deriving DecidableEq

/-- An atom together with its optional `*` quantifier. -/
structure AtomQ where
  atom : RAtom
  star : Bool
deriving DecidableEq

/-- Does one atom accept one character? -/
def matchAtom : RAtom → Char → Bool
  | .lit c, d => c = d
  | .nonSlash, d => d ≠ '/'

/-- Characters that are not plain literals in a JavaScript regex. -/
def isRegexSpecial (c : Char) : Bool :=
  c = '(' ∨ c = ')' ∨ c = '[' ∨ c = ']' ∨ c = '\x7b' ∨ c = '\x7d' ∨
  c = '+' ∨ c = '*' ∨ c = '?' ∨ c = '|' ∨ c = '^' ∨ c = '$' ∨
  c = '.' ∨ c = '\\'

/-- Parse one atom from the front of the compiled regex string. -/
def parseAtom : Str → Option (RAtom × Str)
  | [] => none
  | '\\' :: [] => none
  | '\\' :: c :: rest => some (.lit c, rest)
  | '[' :: '^' :: '/' :: ']' :: rest => some (.nonSlash, rest)
  | c :: rest => if isRegexSpecial c then none else some (.lit c, rest)

/-- Fuel-driven parse of the whole compiled regex string into quantified
atoms; `s.length` steps always suffice. -/
def parseRxF : Nat → Str → Option (List AtomQ)
  | 0, s => if s.isEmpty then some [] else none
  | _ + 1, [] => some []
  | fuel + 1, s =>
    match parseAtom s with
    | none => none
    | some (a, rest) =>
      match rest with
      | '*' :: rest2 => (parseRxF fuel rest2).map (⟨a, true⟩ :: ·)
      | _ => (parseRxF fuel rest).map (⟨a, false⟩ :: ·)

/-- Parse a compiled regex string. -/
def parseRx (s : Str) : Option (List AtomQ) :=
  parseRxF s.length s

/-- Fuel-driven acceptance for a fully anchored regex (`^pattern$`):
the atoms must consume the whole string. -/
def rxAcceptF : Nat → List AtomQ → Str → Bool
  | 0, atoms, s => atoms.isEmpty && s.isEmpty
  | _ + 1, [], s => s.isEmpty
  | fuel + 1, ⟨a, false⟩ :: rest, s =>
    match s with
    | [] => false
    | d :: ds => matchAtom a d && rxAcceptF fuel rest ds
  | fuel + 1, ⟨a, true⟩ :: rest, s =>
    rxAcceptF fuel rest s ||
      match s with
      | [] => false
      | d :: ds => matchAtom a d && rxAcceptF fuel (⟨a, true⟩ :: rest) ds

/-- Acceptance for `^pattern$`. -/
def rxAccept (atoms : List AtomQ) (s : Str) : Bool :=
  rxAcceptF (atoms.length + s.length + 1) atoms s

/-- Fuel-driven acceptance for a start-anchored regex (`^pattern`): the atoms
may leave an arbitrary suffix of the string unconsumed. -/
def rxAcceptPreF : Nat → List AtomQ → Str → Bool
  | 0, atoms, _ => atoms.isEmpty
  | _ + 1, [], _ => true
  | fuel + 1, ⟨a, false⟩ :: rest, s =>
    match s with
    | [] => false
    | d :: ds => matchAtom a d && rxAcceptPreF fuel rest ds
  | fuel + 1, ⟨a, true⟩ :: rest, s =>
    rxAcceptPreF fuel rest s ||
      match s with
      | [] => false
      | d :: ds => matchAtom a d && rxAcceptPreF fuel (⟨a, true⟩ :: rest) ds

/-- Acceptance for `^pattern`. -/
def rxAcceptPre (atoms : List AtomQ) (s : Str) : Bool :=
  rxAcceptPreF (atoms.length + s.length + 1) atoms s

/-- The glob-to-regex translation chain shared verbatim by
`FileMapper.shouldIgnore` and `IgnoreParser.shouldIgnore`: protect `**`,
expand `*`, expand the protected `**`, expand `?`, and finally escape dots.
The dot-escaping step runs last and therefore also escapes the dots produced
by the `?` and `**` expansions. -/
def globToRegex (pattern : Str) : Str :=
  replaceAll (str ".") (str "\\.")
    (replaceAll (str "?") (str ".")
      (replaceAll (str "___DOUBLESTAR___") (str ".*")
        (replaceAll (str "*") (str "[^/]*")
          (replaceAll (str "**") (str "___DOUBLESTAR___") pattern))))

namespace FileMapper

/-- Result record of `FileMapper.mapFile` (a partial `FileMapping`: the
method supplies neither `requiredModules` nor `platforms`). -/
structure MapFileResult where
  sourcePath : Str
  deployPath : Str
  isTemplate : Bool
  isExecutable : Bool
deriving DecidableEq

/-- Replace a `dot_` segment marker: `part.replace(/^dot_/, '.')`. -/
def dotRepl (part : Str) : Str :=
  if startsWithS (str "dot_") part then '.' :: part.drop 4 else part

/-- The stripped final path segment of `mapFile`: `executable_` marker
removed, `.tmpl` suffix removed. -/
def strippedFilename (sourcePath : Str) : Str :=
  let filename0 := (splitOnChar '/' sourcePath).getLastD []
  let filename1 :=
    if startsWithS (str "executable_") filename0 then
      filename0.drop (str "executable_").length
    else filename0
  if endsWithS (str ".tmpl") filename1 then
    filename1.take (filename1.length - (str ".tmpl").length)
  else filename1

/-- The deploy path computed by `mapFile` before the home-prefix step: the
path is reassembled with the stripped final segment, re-split, and every
segment's `dot_` marker replaced. -/
def preHomePath (sourcePath : Str) : Str :=
  let dirPath := (splitOnChar '/' sourcePath).dropLast
  let modifiedPath := intercalateChar '/' (dirPath ++ [strippedFilename sourcePath])
  intercalateChar '/' ((splitOnChar '/' modifiedPath).map dotRepl)

/-- The term `FileMapper.mapFile`: map a chezmoi source path to its deployment
information. -/
def mapFile (sourcePath : Str) : MapFileResult :=
  let filename0 := (splitOnChar '/' sourcePath).getLastD []
  let isExecutable := startsWithS (str "executable_") filename0
  let filename1 :=
    if startsWithS (str "executable_") filename0 then
      filename0.drop (str "executable_").length
    else filename0
  let isTemplate := endsWithS (str ".tmpl") filename1
  let deployPath0 := preHomePath sourcePath
  let deployPath :=
    if !startsWithS (str "/") deployPath0 && !startsWithS (str ".") deployPath0 then
      str "~/" ++ deployPath0
    else if startsWithS (str ".") deployPath0 then
      str "~/" ++ deployPath0
    else deployPath0
  { sourcePath := sourcePath, deployPath := deployPath,
    isTemplate := isTemplate, isExecutable := isExecutable }

/-- The term `FileMapper.inferModules`: path-fragment heuristics for required
modules. -/
def inferModules (sourcePath : Str) : List Str :=
  (if strContains sourcePath (str "shell/") ||
      strContains sourcePath (str "dot_bashrc") ||
      strContains sourcePath (str "dot_zshrc") then [str "shell"] else []) ++
  (if strContains sourcePath (str "Code/User/") then [str "vscode"] else []) ++
  (if strContains sourcePath (str "PowerShell/") then [str "powershell"] else []) ++
  (if strContains sourcePath (str "start_menu") then [str "start_menu"] else []) ++
  (if strContains sourcePath (str "gitconfig") then [str "git"] else []) ++
  (if strContains sourcePath (str "smart-search") ||
      strContains sourcePath (str "smart_search") then [str "smart_search"] else [])

/-- The term `FileMapper.inferPlatforms`: path-fragment heuristics for supported
platforms. -/
def inferPlatforms (sourcePath : Str) : List Str :=
  if strContains sourcePath (str "PowerShell/") then [str "windows"]
  else if strContains sourcePath (str "dot_bashrc") ||
          strContains sourcePath (str "dot_zshrc") then [str "linux", str "darwin"]
  else if strContains sourcePath (str "Code/User/") then
    [str "linux", str "darwin", str "windows"]
  else if strContains sourcePath (str "bin/executable_") ||
          strContains sourcePath (str "scripts/") then [str "linux", str "darwin"]
  else [str "linux", str "darwin", str "windows"]

/-- The term `FileMapper.shouldIgnore`: any pattern, compiled through `globToRegex`
and anchored at both ends, matches the path. -/
def shouldIgnore (path : Str) (patterns : List Str) : Bool :=
  patterns.any fun pattern =>
    match parseRx (globToRegex pattern) with
    | none => false
    | some atoms => rxAccept atoms path

/-- The term `FileMapper.buildFileMapping`: complete a `FileMapping`, falling back to
the inference heuristics when explicit metadata is absent. -/
def buildFileMapping (sourcePath : Str)
    (requiredModules : Option (List Str))
    (platforms : Option (List Str)) : FileMapping :=
  let baseMapping := mapFile sourcePath
  { sourcePath := sourcePath
    deployPath := baseMapping.deployPath
    isTemplate := baseMapping.isTemplate
    isExecutable := baseMapping.isExecutable
    requiredModules := requiredModules.getD (inferModules sourcePath)
    platforms := platforms.getD (inferPlatforms sourcePath) }

end FileMapper

namespace IgnoreParser

/-- The class `.` of the extraction regex (matches anything except line
terminators). -/
def dotChar (c : Char) : Bool :=
  c ≠ '\n' ∧ c ≠ '\r'

/-- Does `\s*\x7d\x7d` match at the start of `s`?  (Maximal munch on `\s*` is
exact here because a brace is not whitespace.) -/
def closeAt (s : Str) : Bool :=
  startsWithS (str "\x7d\x7d") (s.dropWhile isWs)

/-- The lazy group `(.+?)` of `\{\{-?\s*if\s+(.+?)\s*\}\}`: the shortest
nonempty run of `.`-characters after which `\s*\x7d\x7d` matches. -/
def lazyBody : Str → Option Str
  | [] => none
  | c :: rest =>
    if !dotChar c then none
    else if closeAt rest then some [c]
    else (lazyBody rest).map (c :: ·)

/-- Match `\s*(.+?)\s*\x7d\x7d` with a greedy `\s*` that backtracks into the
lazy group when needed; together with one mandatory leading whitespace
character this is the `\s+(.+?)\s*\}\}` tail of the extraction regex. -/
def matchIfBody : Str → Option Str
  | [] => none
  | c :: rest =>
    if isWs c then
      match matchIfBody rest with
      | some r => some r
      | none => lazyBody (c :: rest)
    else lazyBody (c :: rest)

/-- Anchored matcher for `\{\{-?\s*if\s+(.+?)\s*\}\}`. -/
def tryIfAt (s : Str) : Option Str := do
  let s ← stripLit (str "\x7b\x7b") s
  let s := if startsWithS (str "-") s then s.drop 1 else s
  let s := s.dropWhile isWs
  let s ← stripLit (str "if") s
  match s with
  | c :: rest => if isWs c then matchIfBody rest else none
  | [] => none

/-- The term `IgnoreParser.extractCondition`: the captured group of the leftmost match
of the extraction regex, trimmed; the empty string when there is no match. -/
def extractCondition (line : Str) : Str :=
  match scanFirst tryIfAt line with
  | some cap => trim cap
  | none => []

/-- The term `IgnoreParser.evaluateCondition`: the regex-dispatch condition evaluator
of the ignore parser.  A branch whose guarding `includes` test succeeds but
whose regex fails to match falls through to the next branch; the final
fallback is `true`. -/
def evaluateCondition (condition : Str) (config : DotfilesConfig)
    (platform : Str) : Bool :=
  match (if strContains condition (str "eq .chezmoi.os") then
           matchEqChezmoiOs condition else none) with
  | some targetPlatform => platform = targetPlatform
  | none =>
  match (if strContains condition (str "not .modules.") &&
            !strContains condition (str ".enabled") then
           matchNotModulesProp condition else none) with
  | some (moduleName, propertyName) =>
    (match lookupModule config moduleName with
     | some moduleConfig => !(propTruthy moduleConfig propertyName)
     | none => true)
  | none =>
  match (if strContains condition (str "not .modules.") then
           matchNotModulesEnabled condition else none) with
  | some moduleName => !(moduleEnabled config moduleName)
  | none =>
  match (if strContains condition (str ".modules.") &&
            !strContains condition (str ".enabled") then
           matchModulesProp condition else none) with
  | some (moduleName, propertyName) =>
    (match lookupModule config moduleName with
     | some moduleConfig => propTruthy moduleConfig propertyName
     | none => false)
  | none =>
  match (if strContains condition (str ".modules.") then
           matchModulesEnabled condition else none) with
  | some moduleName => moduleEnabled config moduleName
  | none => true

/-- The term `IgnoreParser.handleConditional`: the stack transition for one
conditional-marker line.  The JavaScript mutates the stack array; here the
new stack is returned, with the top of the stack at the head. -/
def handleConditional (line : Str) (stack : List Bool)
    (config : DotfilesConfig) (platform : Str) : List Bool :=
  let trimmed := trim line
  if strContains trimmed (str "\x7b\x7b- if ") then
    let condition := extractCondition trimmed
    let result := evaluateCondition condition config platform
    let parentState := stack.headD false
    (parentState && result) :: stack
  else if strContains trimmed (str "\x7b\x7b- else") then
    match stack with
    | currentState :: parentState :: rest =>
      (parentState && !currentState) :: parentState :: rest
    | _ => stack
  else if strContains trimmed (str "\x7b\x7b- end") then
    match stack with
    | _ :: second :: rest => second :: rest
    | _ => stack
  else stack

/-- The stack transition performed by one line of `IgnoreParser.parse`:
only lines whose trimmed form starts with the conditional marker touch the
stack. -/
def stepStack (line : Str) (stack : List Bool) (config : DotfilesConfig)
    (platform : Str) : List Bool :=
  let trimmed := trim line
  if trimmed.isEmpty then stack
  else if startsWithS (str "\x7b\x7b-") trimmed then
    handleConditional trimmed stack config platform
  else stack

/-- The condition stack after processing a list of lines, seeded with
`[true]` exactly as `IgnoreParser.parse` seeds it. -/
def stackAfter (lines : List Str) (config : DotfilesConfig)
    (platform : Str) : List Bool :=
  lines.foldl (fun st line => stepStack line st config platform) [true]

/-- The line loop of `IgnoreParser.parse`: emit each trimmed non-blank,
non-marker, non-comment line while the top of the condition stack is true. -/
def parseAux (lines : List Str) (stack : List Bool) (config : DotfilesConfig)
    (platform : Str) : List Str :=
  match lines with
  | [] => []
  | line :: rest =>
    let trimmed := trim line
    let emitted : List Str :=
      if trimmed.isEmpty then []
      else if startsWithS (str "\x7b\x7b-") trimmed then []
      else if startsWithS (str "#") trimmed then []
      else if stack.headD false then [trimmed] else []
    emitted ++ parseAux rest (stepStack line stack config platform) config platform

/-- The term `IgnoreParser.parse`: resolve the active ignore patterns of an ignore
file for a configuration and platform. -/
def parse (ignoreContent : Str) (config : DotfilesConfig)
    (platform : Str) : List Str :=
  parseAux (splitOnChar '\n' ignoreContent) [true] config platform

/-- The term `IgnoreParser.getIgnorePatterns` simply forwards to `parse`. -/
def getIgnorePatterns (ignoreContent : Str) (config : DotfilesConfig)
    (platform : Str) : List Str :=
  parse ignoreContent config platform

/-- The term `IgnoreParser.shouldIgnore`: like `FileMapper.shouldIgnore` but the
compiled pattern is anchored at the start only. -/
def shouldIgnore (filePath : Str) (ignorePatterns : List Str) : Bool :=
  ignorePatterns.any fun pattern =>
    match parseRx (globToRegex pattern) with
    | none => false
    | some atoms => rxAcceptPre atoms filePath

end IgnoreParser

namespace TemplateParser

/-- The accumulator loop of `TemplateParser.splitExpression`: quote-aware
whitespace tokenisation where a token is closed only when the accumulated
text starts with `.`, `eq` or `not`. -/
def splitExpressionAux : Str → Str → Bool → List Str
  | [], current, _ => if (trim current).isEmpty then [] else [trim current]
  | c :: rest, current, inQuotes =>
    if c = '"' then splitExpressionAux rest (current ++ ['"']) (!inQuotes)
    else if c = ' ' && !inQuotes && !(trim current).isEmpty then
      if startsWithS (str ".") current || startsWithS (str "eq") current ||
         startsWithS (str "not") current then
        trim current :: splitExpressionAux rest [] inQuotes
      else splitExpressionAux rest (current ++ [' ']) inQuotes
    else splitExpressionAux rest (current ++ [c]) inQuotes

/-- The term `TemplateParser.splitExpression`. -/
def splitExpression (expr : Str) : List Str :=
  let parts := splitExpressionAux expr [] false
  if parts.isEmpty then [expr] else parts

/-- Fuel-driven body of `TemplateParser.evaluateCondition`.  Every recursive
call of the source shrinks the expression by at least three characters, so
`expression.length + 1` units of fuel always suffice; the fuel-exhausted
value is never reached from `evaluateCondition`. -/
def evalCondF : Nat → Str → DotfilesConfig → Str → Bool
  | 0, _, _, _ => true
  | fuel + 1, expression, config, platform =>
    let trimmed := trim expression
    if startsWithS (str "not ") trimmed then
      !(evalCondF fuel (trim (trimmed.drop 4)) config platform)
    else if startsWithS (str "and ") trimmed then
      (splitExpression (trim (trimmed.drop 4))).all fun part =>
        evalCondF fuel part config platform
    else if startsWithS (str "or ") trimmed then
      (splitExpression (trim (trimmed.drop 3))).any fun part =>
        evalCondF fuel part config platform
    else
      match (if strContains trimmed (str "eq .chezmoi.os") then
               matchEqChezmoiOs trimmed else none) with
      | some targetPlatform => platform = targetPlatform
      | none =>
      match (if strContains trimmed (str ".modules.") then
               matchModulesEnabled trimmed else none) with
      | some moduleName => moduleEnabled config moduleName
      | none =>
      match (if startsWithS (str ".modules.") trimmed then
               matchModulesProp trimmed else none) with
      | some (moduleName, propertyName) =>
        (match lookupModule config moduleName with
         | some m => propTruthy m propertyName
         | none => true)
      | none => true

/-- The term `TemplateParser.evaluateCondition`: the recursive-descent conditional
evaluator used for simulation. -/
def evaluateCondition (expression : Str) (config : DotfilesConfig)
    (platform : Str) : Bool :=
  evalCondF (expression.length + 1) expression config platform

/-- Overwrite the `enabled` flag of every entry named `name` (JavaScript
objects have unique keys, so at most one entry is affected). -/
def setEnabled (config : DotfilesConfig) (name : Str) (enabled : Bool) :
    DotfilesConfig :=
  { data := { config.data with
      modules := config.data.modules.map fun km =>
        if km.1 = name then (km.1, { km.2 with enabled := enabled }) else km } }

/-- The term `TemplateParser.applyModuleChanges`: deep-copy the base configuration and
overwrite the `enabled` flag of every changed module that exists in the
module map.  The deep copy of a pure data value is the identity here. -/
def applyModuleChanges (baseConfig : DotfilesConfig)
    (moduleChanges : List (Str × Bool)) : DotfilesConfig :=
  moduleChanges.foldl
    (fun cfg change =>
      if (lookupModule cfg change.1).isSome then
        setEnabled cfg change.1 change.2
      else cfg)
    baseConfig

end TemplateParser

namespace FilesRoute

/-- The structural skip list of the `GET /api/files` loop. -/
def excluded (sourcePath : Str) : Bool :=
  endsWithS (str "/") sourcePath ||
  sourcePath = str ".git" ||
  startsWithS (str ".git/") sourcePath ||
  sourcePath = str "LICENSE" ||
  sourcePath = str "README.md" ||
  sourcePath = str "CLAUDE.md" ||
  startsWithS (str "docs/") sourcePath ||
  sourcePath = str ".gitignore" ||
  sourcePath = str ".pre-commit-config.yaml" ||
  sourcePath = str ".secrets.baseline" ||
  sourcePath = str "Makefile"

/-- One iteration of the `GET /api/files` loop: `continue` becomes `none`,
`files.push` becomes `some`.  The ignore test runs on the deploy path with
its leading `~/` stripped (`replace(/^~\//, '')`). -/
def processFile (ignorePatterns : List Str) (config : DotfilesConfig)
    (platform : Str) (sourcePath : Str) : Option FileMapping :=
  if excluded sourcePath then none
  else
    let fileMapping := FileMapper.buildFileMapping sourcePath none none
    let deployPathForIgnore :=
      if startsWithS (str "~/") fileMapping.deployPath then
        fileMapping.deployPath.drop 2
      else fileMapping.deployPath
    if IgnoreParser.shouldIgnore deployPathForIgnore ignorePatterns then none
    else if !elemStr platform fileMapping.platforms then none
    else if !(fileMapping.requiredModules.all fun m => moduleEnabled config m)
      then none
    else some fileMapping

/-- The resolved file list of `GET /api/files`. -/
def getFiles (allSourceFiles : List Str) (ignoreContent : Str)
    (config : DotfilesConfig) (platform : Str) : List FileMapping :=
  let ignorePatterns := IgnoreParser.getIgnorePatterns ignoreContent config platform
  allSourceFiles.filterMap (processFile ignorePatterns config platform)

end FilesRoute

namespace SimulateRoute

/-- The skip list of `getFilesForConfig` inside `POST /api/simulate`. -/
def skipSpecial (sourcePath : Str) : Bool :=
  sourcePath = str ".chezmoi.yaml" ||
  sourcePath = str ".chezmoiignore" ||
  strContains sourcePath (str ".git/") ||
  strContains sourcePath (str "node_modules/") ||
  startsWithS (str ".") sourcePath

/-- One iteration of the `getFilesForConfig` loop of `POST /api/simulate`.
The mapping comes from `FileMapper.mapFile`, which supplies neither
`platforms` nor `requiredModules`, so the `||` fallbacks always take effect;
the ignore test runs on the raw source path. -/
def processFile (ignorePatterns : List Str) (config : DotfilesConfig)
    (platform : Str) (sourcePath : Str) : Option FileMapping :=
  if skipSpecial sourcePath then none
  else
    let fileMapping := FileMapper.mapFile sourcePath
    let fullMapping : FileMapping :=
      { sourcePath := sourcePath
        deployPath := if fileMapping.deployPath.isEmpty then sourcePath
                      else fileMapping.deployPath
        isTemplate := fileMapping.isTemplate
        isExecutable := fileMapping.isExecutable
        platforms := [platform]
        requiredModules := [] }
    if IgnoreParser.shouldIgnore fullMapping.sourcePath ignorePatterns then none
    else if !elemStr platform fullMapping.platforms then none
    else if !(fullMapping.requiredModules.all fun m => moduleEnabled config m)
      then none
    else some fullMapping

/-- The term `getFilesForConfig` of `POST /api/simulate`. -/
def getFilesForConfig (allSourceFiles : List Str) (ignoreContent : Str)
    (config : DotfilesConfig) (platform : Str) : List FileMapping :=
  let ignorePatterns := IgnoreParser.getIgnorePatterns ignoreContent config platform
  allSourceFiles.filterMap (processFile ignorePatterns config platform)

/-- The diff part of the simulate response (alias extraction is a stub in the
source and the platform and change echoes carry no logic). -/
structure SimulateResponse where
  filesAdded : List FileMapping
  filesRemoved : List FileMapping
  totalFilesBefore : Nat
  totalFilesAfter : Nat
deriving DecidableEq

/-- The body of `POST /api/simulate`: apply the module changes, resolve both
configurations, and diff by deploy-path membership. -/
def simulate (allSourceFiles : List Str) (ignoreContent : Str)
    (baseConfig : DotfilesConfig) (moduleChanges : List (Str × Bool))
    (platform : Str) : SimulateResponse :=
  let simulatedConfig := TemplateParser.applyModuleChanges baseConfig moduleChanges
  let baseFiles := getFilesForConfig allSourceFiles ignoreContent baseConfig platform
  let simulatedFiles :=
    getFilesForConfig allSourceFiles ignoreContent simulatedConfig platform
  let baseFilePaths := baseFiles.map (fun f => f.deployPath)
  let simulatedFilePaths := simulatedFiles.map (fun f => f.deployPath)
  { filesAdded := simulatedFiles.filter fun f => !elemStr f.deployPath baseFilePaths
    filesRemoved := baseFiles.filter fun f => !elemStr f.deployPath simulatedFilePaths
    totalFilesBefore := baseFiles.length
    totalFilesAfter := simulatedFiles.length }

end SimulateRoute

/-! ## Sample configurations and supporting lemmas -/

/-- A representative configuration with a `shell` module (with a
`zsh_extras` sub-property) and a `git` module. -/
def cfgShell (shellEnabled : Bool) : DotfilesConfig :=
  { data := { gitUserName := str "Brecht", gitUserEmail := str "brecht@example.org"
              windows := false
              modules := [(str "shell",
                            { enabled := shellEnabled
                              props := [(str "zsh_extras", PropVal.b false)] }),
                          (str "git", { enabled := true, props := [] })] } }

/-- The conditional ignore file of the platform-branch scenario. -/
def ignoreTextOsBranch : Str :=
  str "\x7b\x7b- if eq .chezmoi.os \"windows\" \x7d\x7d\nfoo/**\n\x7b\x7b- else \x7d\x7d\nbar/**\n\x7b\x7b- end \x7d\x7d"

/-- First (and, for JavaScript `Record` payloads, only) change requested for
the module `name`: specification vocabulary for `applyModuleChanges`. -/
def findChange (moduleChanges : List (Str × Bool)) (name : Str) : Option Bool :=
  match moduleChanges with
  | [] => none
  | (k, b) :: rest => if k = name then some b else findChange rest name

/-- The syntactic forms on which `TemplateParser.evaluateCondition` can
return from a non-default branch: every expression outside this set reaches
the fail-open default. -/
def recognizedTemplate (trimmed : Str) : Bool :=
  startsWithS (str "not ") trimmed || startsWithS (str "and ") trimmed ||
  startsWithS (str "or ") trimmed ||
  (strContains trimmed (str "eq .chezmoi.os") && (matchEqChezmoiOs trimmed).isSome) ||
  (strContains trimmed (str ".modules.") && (matchModulesEnabled trimmed).isSome) ||
  (startsWithS (str ".modules.") trimmed && (matchModulesProp trimmed).isSome)

/-- The syntactic forms on which `IgnoreParser.evaluateCondition` can return
from a non-default branch. -/
def recognizedIgnore (condition : Str) : Bool :=
  (strContains condition (str "eq .chezmoi.os") &&
    (matchEqChezmoiOs condition).isSome) ||
  (strContains condition (str "not .modules.") &&
    !strContains condition (str ".enabled") &&
    (matchNotModulesProp condition).isSome) ||
  (strContains condition (str "not .modules.") &&
    (matchNotModulesEnabled condition).isSome) ||
  (strContains condition (str ".modules.") &&
    !strContains condition (str ".enabled") &&
    (matchModulesProp condition).isSome) ||
  (strContains condition (str ".modules.") &&
    (matchModulesEnabled condition).isSome)

theorem startsWithS_append (p s : Str) : startsWithS p (p ++ s) = true := by
  induction p with
  | nil => rfl
  | cons c cs ih => simp [startsWithS, ih]

theorem elemStr_self_cons (x : Str) (l : List Str) : elemStr x (x :: l) = true := by
  simp [elemStr]

theorem elemStr_iff (x : Str) (l : List Str) : elemStr x l = true ↔ x ∈ l := by
  induction l with
  | nil => simp [elemStr]
  | cons y ys ih =>
    by_cases h : x = y
    · subst h; simp [elemStr]
    · simp [elemStr, h, ih]

/-! ## C5: platform branches of the ignore resolver -/

/-- C5 (confirmed).  For every configuration, resolving the ignore text
consisting of the conditional block on `eq .chezmoi.os "windows"` with
`foo/**` in the if-branch and `bar/**` in the else-branch yields exactly
`["bar/**"]` on platform `linux` and exactly `["foo/**"]` on platform
`windows`. -/
theorem ignore_resolution_platform_branches (config : DotfilesConfig) :
    IgnoreParser.parse ignoreTextOsBranch config (str "linux") = [str "bar/**"] ∧
    IgnoreParser.parse ignoreTextOsBranch config (str "windows") = [str "foo/**"] :=
  ⟨rfl, rfl⟩

/-! ## C4: the glob compiler escapes its own generated dots -/

/-- C4 (code_bug).  The claim (and the comments inside both `shouldIgnore`
implementations) say `?` matches exactly one arbitrary character and `**`
matches any sequence including separators, so `abc` should match `a?c` and
`foo/bar/baz` should match `foo/**` at both call sites.  In the code the
dot-escaping replacement runs after the `?` and `**` expansions, so `?`
compiles to a literal-dot matcher and `**` to "zero or more literal dots":
`abc` matches `a?c` at neither call site (while `a.c` does), and
`foo/bar/baz` fails to match `foo/**` at the doubly-anchored
`FileMapper.shouldIgnore` call site (it matches at the start-anchored
`IgnoreParser.shouldIgnore` site only because `\.*` may match the empty
string). -/
theorem glob_compile_dot_escape_bug :
    FileMapper.shouldIgnore (str "abc") [str "a?c"] = false ∧
    IgnoreParser.shouldIgnore (str "abc") [str "a?c"] = false ∧
    FileMapper.shouldIgnore (str "a.c") [str "a?c"] = true ∧
    FileMapper.shouldIgnore (str "foo/bar/baz") [str "foo/**"] = false ∧
    IgnoreParser.shouldIgnore (str "foo/bar/baz") [str "foo/**"] = true ∧
    FileMapper.shouldIgnore (str "foo/...") [str "foo/**"] = true := by
  decide

/-! ## C1: the simulate scenario for toggling `shell` on `dot_bashrc` -/

/-- Inside `POST /api/simulate` the mapping for `dot_bashrc` is built by
`FileMapper.mapFile` alone, so it carries no required modules and the
requested platform as its only platform; with no ignore patterns it passes
every filter, for every configuration. -/
theorem simulateRoute_processFile_dot_bashrc (config : DotfilesConfig) (platform : Str) :
    SimulateRoute.processFile [] config platform (str "dot_bashrc") =
      some ⟨str "dot_bashrc", str "~/.bashrc", false, false, [], [platform]⟩ := by
  have h1 : SimulateRoute.processFile [] config platform (str "dot_bashrc") =
      if !elemStr platform [platform] then none
      else some ⟨str "dot_bashrc", str "~/.bashrc", false, false, [], [platform]⟩ := rfl
  rw [h1, elemStr_self_cons]
  rfl

/-- With source list `["dot_bashrc"]` and an empty ignore file, the simulate
resolution returns exactly the `~/.bashrc` mapping, for every configuration
and platform. -/
theorem simulateRoute_files_dot_bashrc (config : DotfilesConfig) (platform : Str) :
    SimulateRoute.getFilesForConfig [str "dot_bashrc"] [] config platform =
      [⟨str "dot_bashrc", str "~/.bashrc", false, false, [], [platform]⟩] := by
  have hpats : IgnoreParser.getIgnorePatterns [] config platform = [] := rfl
  simp [SimulateRoute.getFilesForConfig, hpats, simulateRoute_processFile_dot_bashrc]

/-- C1 (corrected, counterexample).  At the claimed input — base
configuration with `shell.enabled = false`, source list `["dot_bashrc"]`,
module changes `{shell: true}`, platform `linux` (and an empty ignore file)
— the simulation reports one file before the change and an empty `added`
list, not zero files before and a one-element `added` list as claimed: the
simulate endpoint never attaches `requiredModules` to its mappings, so the
file is deployed under both configurations. -/
theorem simulate_shellToggle_claimed_diff_refuted :
    (SimulateRoute.simulate [str "dot_bashrc"] [] (cfgShell false)
        [(str "shell", true)] (str "linux")).totalFilesBefore = 1 ∧
    (SimulateRoute.simulate [str "dot_bashrc"] [] (cfgShell false)
        [(str "shell", true)] (str "linux")).filesAdded = [] := by
  decide

/-- C1 (amended).  Simulating `{shell: true}` over a base configuration with
`shell` disabled, source list `["dot_bashrc"]` and an empty ignore file
yields, on every platform, an empty diff with one file before and after;
the single mapping resolved under both configurations deploys to
`~/.bashrc` with an empty `requiredModules` list. -/
theorem simulate_shellToggle_diff_empty (platform : Str) :
    SimulateRoute.simulate [str "dot_bashrc"] [] (cfgShell false)
        [(str "shell", true)] platform =
      { filesAdded := [], filesRemoved := [],
        totalFilesBefore := 1, totalFilesAfter := 1 } ∧
    SimulateRoute.getFilesForConfig [str "dot_bashrc"] [] (cfgShell false) platform =
      [⟨str "dot_bashrc", str "~/.bashrc", false, false, [], [platform]⟩] := by
  refine ⟨?_, simulateRoute_files_dot_bashrc _ _⟩
  simp [SimulateRoute.simulate, simulateRoute_files_dot_bashrc, elemStr_self_cons]

/-! ## C2: simulate-side mappings never carry inferred metadata -/

/-- Any mapping produced by one iteration of the simulate resolution has an
empty `requiredModules` list and exactly the requested platform. -/
theorem simulateRoute_processFile_shape
    (pats : List Str) (cfg : DotfilesConfig) (pf a : Str) (m : FileMapping)
    (h : SimulateRoute.processFile pats cfg pf a = some m) :
    m.requiredModules = [] ∧ m.platforms = [pf] := by
  simp only [SimulateRoute.processFile] at h
  repeat' split at h
  all_goals first
    | (simp only [Option.some.injEq] at h; subst h; exact ⟨rfl, rfl⟩)
    | exact Option.noConfusion h

/-- C2 (confirmed).  Every `FileMapping` produced inside the simulate
endpoint's resolution has `requiredModules = []` and `platforms` equal to
the one-element list of the requested platform: the endpoint builds its
mappings with `FileMapper.mapFile`, which supplies neither field, so module
inference is never applied during simulation. -/
theorem simulate_mappings_inferenceFree (files : List Str) (ignoreContent : Str)
    (config : DotfilesConfig) (platform : Str) (m : FileMapping)
    (hm : m ∈ SimulateRoute.getFilesForConfig files ignoreContent config platform) :
    m.requiredModules = [] ∧ m.platforms = [platform] := by
  simp only [SimulateRoute.getFilesForConfig, List.mem_filterMap] at hm
  obtain ⟨a, _, ha⟩ := hm
  exact simulateRoute_processFile_shape _ _ _ _ _ ha

/-- Witness for C2 at a concrete input. -/
theorem simulate_mappings_inferenceFree_witness :
    (⟨str "dot_bashrc", str "~/.bashrc", false, false, [], [str "linux"]⟩ : FileMapping) ∈
      SimulateRoute.getFilesForConfig [str "dot_bashrc"] [] (cfgShell true) (str "linux") ∧
    ([] : List Str) = [] ∧ [str "linux"] = [str "linux"] :=
  ⟨by decide,
   simulate_mappings_inferenceFree [str "dot_bashrc"] [] (cfgShell true) (str "linux")
     ⟨str "dot_bashrc", str "~/.bashrc", false, false, [], [str "linux"]⟩ (by decide)⟩

/-! ## C9: platform and module invariants of the deployment resolvers -/

/-- Any mapping admitted by one iteration of the `GET /api/files` loop has
passed the platform filter and the enabled-modules filter. -/
theorem filesRoute_processFile_shape
    (pats : List Str) (cfg : DotfilesConfig) (pf a : Str) (m : FileMapping)
    (h : FilesRoute.processFile pats cfg pf a = some m) :
    elemStr pf m.platforms = true ∧
    (m.requiredModules.all fun mod => moduleEnabled cfg mod) = true := by
  simp only [FilesRoute.processFile] at h
  repeat' split at h
  all_goals first
    | (simp only [Option.some.injEq] at h; subst h
       constructor
       · simp_all
       · simp_all)
    | exact Option.noConfusion h

/-- C9 (confirmed).  For every source list, ignore file, configuration and
platform, every `FileMapping` returned by the deployment resolver — the
`GET /api/files` loop as well as the simulate-side `getFilesForConfig` —
has a `platforms` list containing the target platform and a
`requiredModules` list all of whose elements name modules enabled in the
configuration. -/
theorem resolver_platform_modules_invariant :
    (∀ (files : List Str) (ign : Str) (cfg : DotfilesConfig) (pf : Str)
        (m : FileMapping), m ∈ FilesRoute.getFiles files ign cfg pf →
        pf ∈ m.platforms ∧ ∀ mod ∈ m.requiredModules, moduleEnabled cfg mod = true) ∧
    (∀ (files : List Str) (ign : Str) (cfg : DotfilesConfig) (pf : Str)
        (m : FileMapping), m ∈ SimulateRoute.getFilesForConfig files ign cfg pf →
        pf ∈ m.platforms ∧ ∀ mod ∈ m.requiredModules, moduleEnabled cfg mod = true) := by
  constructor
  · intro files ign cfg pf m hm
    simp only [FilesRoute.getFiles, List.mem_filterMap] at hm
    obtain ⟨a, _, ha⟩ := hm
    obtain ⟨h1, h2⟩ := filesRoute_processFile_shape _ _ _ _ _ ha
    exact ⟨(elemStr_iff _ _).mp h1, fun mod hmod => by
      exact List.all_eq_true.mp h2 mod hmod⟩
  · intro files ign cfg pf m hm
    simp only [SimulateRoute.getFilesForConfig, List.mem_filterMap] at hm
    obtain ⟨a, _, ha⟩ := hm
    obtain ⟨h1, h2⟩ := simulateRoute_processFile_shape _ _ _ _ _ ha
    rw [h1, h2]
    exact ⟨by simp, by simp⟩

/-- Witness for C9 at concrete inputs for both resolvers. -/
theorem resolver_platform_modules_invariant_witness :
    ((⟨str "dot_bashrc", str "~/.bashrc", false, false, [str "shell"],
        [str "linux", str "darwin"]⟩ : FileMapping) ∈
      FilesRoute.getFiles [str "dot_bashrc"] [] (cfgShell true) (str "linux")) ∧
    ((str "linux") ∈ [str "linux", str "darwin"] ∧
      moduleEnabled (cfgShell true) (str "shell") = true) ∧
    ((⟨str "dot_bashrc", str "~/.bashrc", false, false, [], [str "linux"]⟩ : FileMapping) ∈
      SimulateRoute.getFilesForConfig [str "dot_bashrc"] [] (cfgShell true) (str "linux")) ∧
    (str "linux") ∈ ([str "linux"] : List Str) := by
  have hmem1 : (⟨str "dot_bashrc", str "~/.bashrc", false, false, [str "shell"],
      [str "linux", str "darwin"]⟩ : FileMapping) ∈
      FilesRoute.getFiles [str "dot_bashrc"] [] (cfgShell true) (str "linux") := by decide
  have hmem2 : (⟨str "dot_bashrc", str "~/.bashrc", false, false, [], [str "linux"]⟩ :
      FileMapping) ∈
      SimulateRoute.getFilesForConfig [str "dot_bashrc"] [] (cfgShell true) (str "linux") := by
    decide
  have h1 := resolver_platform_modules_invariant.1 _ _ _ _ _ hmem1
  have h2 := resolver_platform_modules_invariant.2 _ _ _ _ _ hmem2
  exact ⟨hmem1, ⟨h1.1, h1.2 _ (by decide)⟩, hmem2, h2.1⟩

/-! ## C6: the inclusion-state stack never drops below one entry -/

/-- One conditional-marker line keeps the stack nonempty. -/
theorem handleConditional_length (line : Str) (stack : List Bool)
    (cfg : DotfilesConfig) (pf : Str) (h : 1 ≤ stack.length) :
    1 ≤ (IgnoreParser.handleConditional line stack cfg pf).length := by
  simp only [IgnoreParser.handleConditional]
  repeat' split
  all_goals simp_all

/-- One line of the parse loop keeps the stack nonempty. -/
theorem stepStack_length (line : Str) (stack : List Bool)
    (cfg : DotfilesConfig) (pf : Str) (h : 1 ≤ stack.length) :
    1 ≤ (IgnoreParser.stepStack line stack cfg pf).length := by
  simp only [IgnoreParser.stepStack]
  repeat' split
  · exact h
  · exact handleConditional_length _ _ _ _ h
  · exact h

/-- Folding the per-line transition preserves stack nonemptiness. -/
theorem foldl_stepStack_length (lines : List Str) (cfg : DotfilesConfig)
    (pf : Str) :
    ∀ stack : List Bool, 1 ≤ stack.length →
      1 ≤ (lines.foldl (fun st l => IgnoreParser.stepStack l st cfg pf) stack).length := by
  induction lines with
  | nil => intro s h; simpa using h
  | cons l ls ih => intro s h; exact ih _ (stepStack_length _ _ _ _ h)

/-- C6 (confirmed).  The inclusion-state stack of the ignore resolver is
seeded with `[true]` and, after processing any prefix of the input lines,
still has at least one entry; moreover an `end` marker handled while the
stack has exactly one entry leaves the stack unchanged. -/
theorem ignore_stack_invariant :
    (∀ (ignoreContent : Str) (cfg : DotfilesConfig) (pf : Str) (n : Nat),
        1 ≤ (IgnoreParser.stackAfter ((splitOnChar '\n' ignoreContent).take n)
              cfg pf).length) ∧
    (∀ (line : Str) (cfg : DotfilesConfig) (pf : Str) (b : Bool),
        strContains (trim line) (str "\x7b\x7b- end") = true →
        strContains (trim line) (str "\x7b\x7b- if ") = false →
        strContains (trim line) (str "\x7b\x7b- else") = false →
        IgnoreParser.handleConditional line [b] cfg pf = [b]) := by
  constructor
  · intro content cfg pf n
    exact foldl_stepStack_length _ _ _ [true] (by simp)
  · intro line cfg pf b hEnd hIf hElse
    simp only [IgnoreParser.handleConditional, hEnd, hIf, hElse]
    simp

/-- Witness for C6 at a concrete ignore file and a concrete `end` line. -/
theorem ignore_stack_invariant_witness :
    1 ≤ (IgnoreParser.stackAfter ((splitOnChar '\n' ignoreTextOsBranch).take 3)
          (cfgShell true) (str "linux")).length ∧
    (strContains (trim (str "\x7b\x7b- end \x7d\x7d")) (str "\x7b\x7b- end") = true ∧
      IgnoreParser.handleConditional (str "\x7b\x7b- end \x7d\x7d") [true]
        (cfgShell true) (str "linux") = [true]) :=
  ⟨ignore_stack_invariant.1 ignoreTextOsBranch (cfgShell true) (str "linux") 3,
   ⟨by decide,
    ignore_stack_invariant.2 (str "\x7b\x7b- end \x7d\x7d") (cfgShell true)
      (str "linux") true (by decide) (by decide) (by decide)⟩⟩


/-! ## C8: applyModuleChanges touches only the requested enabled flags -/

/-- The term `findChange` is `none` for keys not changed. -/
theorem findChange_eq_none (changes : List (Str × Bool)) (k : Str)
    (h : k ∉ changes.map Prod.fst) : findChange changes k = none := by
  induction changes with
  | nil => rfl
  | cons ch rest ih =>
    simp only [List.map_cons, List.mem_cons] at h
    push_neg at h
    have h1 : ¬(ch.1 = k) := fun hx => h.1 hx.symm
    simp [findChange, h1, ih h.2]

/-- Effect of `setEnabled` on a module lookup, at the level of the
association list. -/
theorem lookupModule_go_map_set (k n : Str) (b : Bool)
    (l : List (Str × ModuleState)) :
    lookupModule.go k (l.map fun km =>
        if km.1 = n then (km.1, { km.2 with enabled := b }) else km) =
      if k = n then
        (lookupModule.go k l).map (fun m => { m with enabled := b })
      else lookupModule.go k l := by
  induction l with
  | nil => by_cases h : k = n <;> simp [lookupModule.go, h]
  | cons km rest ih =>
    obtain ⟨key, m⟩ := km
    have hmap : (((key, m) :: rest).map fun km =>
        if km.1 = n then (km.1, { km.2 with enabled := b }) else km) =
        (key, if key = n then { m with enabled := b } else m) ::
          (rest.map fun km =>
            if km.1 = n then (km.1, { km.2 with enabled := b }) else km) := by
      by_cases h : key = n <;> simp [h]
    rw [hmap]
    simp only [lookupModule.go]
    by_cases hk : key = k
    · by_cases hn : k = n
      · have hkeyn : key = n := hk.trans hn
        simp only [if_pos hk, if_pos hn, if_pos hkeyn, Option.map_some']
      · have hkeyn : ¬key = n := fun h => hn (hk.symm.trans h)
        simp only [if_pos hk, if_neg hn, if_neg hkeyn]
    · by_cases hn : k = n
      · simp only [if_neg hk, if_pos hn, ih]
      · simp only [if_neg hk, if_neg hn, ih]

/-- Configuration-level version of `lookupModule_go_map_set`. -/
theorem lookupModule_setEnabled (cfg : DotfilesConfig) (n k : Str) (b : Bool) :
    lookupModule (TemplateParser.setEnabled cfg n b) k =
      if k = n then (lookupModule cfg k).map (fun m => { m with enabled := b })
      else lookupModule cfg k := by
  simp only [lookupModule, TemplateParser.setEnabled]
  exact lookupModule_go_map_set k n b cfg.data.modules

/-- C8 (confirmed).  `applyModuleChanges` returns a configuration equal to
the base except that, for every changed key present in the module map, that
module's `enabled` flag takes the requested value; every other
configuration field, and every other sub-property of a changed module, is
unchanged, and keys absent from the module map have no effect.  (Mutation
of the base object cannot arise in this purely functional embedding: the
source deep-copies via a JSON round trip, modelled as the identity.)
The `Nodup` hypothesis states that the changes come from a JavaScript
`Record`, whose keys are unique. -/
theorem applyModuleChanges_frame (base : DotfilesConfig)
    (changes : List (Str × Bool)) (hnodup : (changes.map Prod.fst).Nodup) :
    (TemplateParser.applyModuleChanges base changes).data.gitUserName =
        base.data.gitUserName ∧
    (TemplateParser.applyModuleChanges base changes).data.gitUserEmail =
        base.data.gitUserEmail ∧
    (TemplateParser.applyModuleChanges base changes).data.windows =
        base.data.windows ∧
    ∀ name, lookupModule (TemplateParser.applyModuleChanges base changes) name =
      match findChange changes name, lookupModule base name with
      | some b, some m => some { m with enabled := b }
      | _, _ => lookupModule base name := by
  induction changes generalizing base with
  | nil => exact ⟨rfl, rfl, rfl, fun name => rfl⟩
  | cons ch rest ih =>
    obtain ⟨n, b⟩ := ch
    simp only [List.map_cons, List.nodup_cons] at hnodup
    obtain ⟨hnmem, hrest⟩ := hnodup
    have hstep :
        TemplateParser.applyModuleChanges base ((n, b) :: rest) =
          TemplateParser.applyModuleChanges
            (if (lookupModule base n).isSome then TemplateParser.setEnabled base n b
             else base) rest := by
      by_cases h : (lookupModule base n).isSome <;>
        simp [TemplateParser.applyModuleChanges, h]
    rw [hstep]
    by_cases hpresent : (lookupModule base n).isSome
    · rw [if_pos hpresent]
      obtain ⟨h1, h2, h3, h4⟩ := ih (TemplateParser.setEnabled base n b) hrest
      refine ⟨h1, h2, h3, fun name => ?_⟩
      rw [h4 name]
      by_cases hname : name = n
      · subst hname
        obtain ⟨m, hm⟩ := Option.isSome_iff_exists.mp hpresent
        rw [findChange_eq_none rest name hnmem,
          lookupModule_setEnabled base name name b, if_pos rfl, hm]
        simp [findChange]
      · have hne : (n = name) = False := eq_false (fun h => hname h.symm)
        rw [lookupModule_setEnabled base n name b, if_neg hname]
        simp [findChange, hne]
    · rw [if_neg hpresent]
      obtain ⟨h1, h2, h3, h4⟩ := ih base hrest
      refine ⟨h1, h2, h3, fun name => ?_⟩
      rw [h4 name]
      by_cases hname : name = n
      · subst hname
        have hnone : lookupModule base name = none :=
          Option.not_isSome_iff_eq_none.mp (by simpa using hpresent)
        rw [findChange_eq_none rest name hnmem, hnone]
        simp [findChange, hnone]
      · have hne : (n = name) = False := eq_false (fun h => hname h.symm)
        simp [findChange, hne]

/-- Witness for C8 at a concrete configuration and change set. -/
theorem applyModuleChanges_frame_witness :
    (([(str "shell", true), (str "nope", false)] : List (Str × Bool)).map
        Prod.fst).Nodup ∧
    lookupModule (TemplateParser.applyModuleChanges (cfgShell false)
        [(str "shell", true), (str "nope", false)]) (str "shell") =
      some { enabled := true, props := [(str "zsh_extras", PropVal.b false)] } := by
  have hn : (([(str "shell", true), (str "nope", false)] : List (Str × Bool)).map
      Prod.fst).Nodup := by decide
  refine ⟨hn, ?_⟩
  have h := (applyModuleChanges_frame (cfgShell false)
    [(str "shell", true), (str "nope", false)] hn).2.2.2 (str "shell")
  rw [h]
  decide

/-! ## C10: unrecognized expressions fail open to true -/

/-- An `includes`-guarded regex branch yields nothing when the guard or the
match fails. -/
theorem guard_none {α : Type} {g : Bool} {o : Option α}
    (h : (g && o.isSome) = false) : (if g = true then o else none) = none := by
  cases g
  · rfl
  · simp only [Bool.true_and] at h
    simpa using Option.not_isSome_iff_eq_none.mp (by simp [h])

/-- C10 (confirmed).  Both condition evaluators are total functions that
return `true` on every expression matching none of the recognized predicate
forms: evaluation falls through every branch to the fail-open default. -/
theorem evaluators_fail_open_default :
    (∀ (expression : Str) (config : DotfilesConfig) (platform : Str),
        recognizedTemplate (trim expression) = false →
        TemplateParser.evaluateCondition expression config platform = true) ∧
    (∀ (condition : Str) (config : DotfilesConfig) (platform : Str),
        recognizedIgnore condition = false →
        IgnoreParser.evaluateCondition condition config platform = true) := by
  constructor
  · intro e cfg pf hrec
    simp only [recognizedTemplate, Bool.or_eq_false_iff] at hrec
    obtain ⟨⟨⟨⟨⟨h1, h2⟩, h3⟩, h4⟩, h5⟩, h6⟩ := hrec
    show TemplateParser.evalCondF (e.length + 1) e cfg pf = true
    simp only [TemplateParser.evalCondF, h1, h2, h3,
      guard_none h4, guard_none h5, guard_none h6]
    simp
  · intro c cfg pf hrec
    simp only [recognizedIgnore, Bool.or_eq_false_iff] at hrec
    obtain ⟨⟨⟨⟨h1, h2⟩, h3⟩, h4⟩, h5⟩ := hrec
    simp only [IgnoreParser.evaluateCondition,
      guard_none h1, guard_none h2, guard_none h3, guard_none h4, guard_none h5]

/-- Witness for C10 on a concrete unrecognized expression. -/
theorem evaluators_fail_open_default_witness :
    recognizedTemplate (trim (str "frobnicate")) = false ∧
    recognizedIgnore (str "frobnicate") = false ∧
    TemplateParser.evaluateCondition (str "frobnicate") (cfgShell true)
      (str "linux") = true ∧
    IgnoreParser.evaluateCondition (str "frobnicate") (cfgShell true)
      (str "linux") = true :=
  ⟨by decide, by decide,
   evaluators_fail_open_default.1 (str "frobnicate") (cfgShell true) (str "linux")
     (by decide),
   evaluators_fail_open_default.2 (str "frobnicate") (cfgShell true) (str "linux")
     (by decide)⟩

/-! ## String lemmas for symbolic reasoning about the scanners -/

theorem startsWithS_iff (p s : Str) : startsWithS p s = true ↔ p <+: s := by
  induction p generalizing s with
  | nil => simp [startsWithS, List.nil_prefix]
  | cons c cs ih =>
    cases s with
    | nil => simp [startsWithS]
    | cons d ds =>
      by_cases h : c = d
      · subst h
        simp [startsWithS, ih, List.cons_prefix_cons]
      · simp [startsWithS, h, List.cons_prefix_cons]

theorem strContains_iff (s sub : Str) : strContains s sub = true ↔ sub <:+: s := by
  induction s with
  | nil =>
    cases sub with
    | nil => simp [strContains, startsWithS]
    | cons c cs => simp [strContains, startsWithS, List.infix_nil]
  | cons c rest ih =>
    rw [strContains]
    by_cases h : startsWithS sub (c :: rest) = true
    · simp only [h, if_true]
      constructor
      · intro _
        exact List.IsPrefix.isInfix ((startsWithS_iff _ _).mp h)
      · intro _
        trivial
    · rw [if_neg h]
      show strContains rest sub = true ↔ sub <:+: c :: rest
      rw [ih]
      constructor
      · intro hi
        exact List.infix_cons_iff.mpr (Or.inr hi)
      · intro hinf
        rcases List.infix_cons_iff.mp hinf with hpre | hinf'
        · exact absurd ((startsWithS_iff _ _).mpr hpre) h
        · exact hinf'

theorem strContains_eq_false_of_mem (s sub : Str) (ch : Char)
    (hc : ch ∈ sub) (hs : ch ∉ s) : strContains s sub = false := by
  cases hcontains : strContains s sub with
  | false => rfl
  | true =>
    have hinf := (strContains_iff s sub).mp hcontains
    exact absurd (hinf.sublist.subset hc) hs

theorem takeWhile_word_break (name Y : Str)
    (hword : ∀ c ∈ name, isWordChar c = true) :
    (name ++ '.' :: Y).takeWhile isWordChar = name := by
  induction name with
  | nil => rfl
  | cons c cs ih =>
    have hc : isWordChar c = true := hword c (List.mem_cons_self _ _)
    simp only [List.cons_append, List.takeWhile_cons, hc, if_true]
    rw [ih (fun d hd => hword d (List.mem_cons_of_mem _ hd))]

theorem dropWhile_word_break (name Y : Str)
    (hword : ∀ c ∈ name, isWordChar c = true) :
    (name ++ '.' :: Y).dropWhile isWordChar = '.' :: Y := by
  induction name with
  | nil => rfl
  | cons c cs ih =>
    have hc : isWordChar c = true := hword c (List.mem_cons_self _ _)
    simp only [List.cons_append, List.dropWhile_cons, hc, if_true]
    exact ih (fun d hd => hword d (List.mem_cons_of_mem _ hd))

theorem takeWord1_word_break (name Y : Str) (hne : name ≠ [])
    (hword : ∀ c ∈ name, isWordChar c = true) :
    takeWord1 (name ++ '.' :: Y) = some (name, '.' :: Y) := by
  simp only [takeWord1, takeWhile_word_break name Y hword,
    dropWhile_word_break name Y hword]
  cases name with
  | nil => exact absurd rfl hne
  | cons c cs => rfl

theorem trim_eq_self_of_ends (c d : Char) (s : Str)
    (hc : isWs c = false) (hd : isWs d = false) :
    trim (c :: (s ++ [d])) = c :: (s ++ [d]) := by
  have h1 : trimRight (c :: (s ++ [d])) = c :: (s ++ [d]) := by
    simp [trimRight, List.dropWhile_cons, hd]
  simp [trim, h1, List.dropWhile_cons, hc]

theorem scanFirst_eq_of_head {α : Type} (f : Str → Option α) (s : Str) (r : α)
    (h : f s = some r) : scanFirst f s = some r := by
  cases s with
  | nil => simpa [scanFirst] using h
  | cons c rest => simp [scanFirst, h]

/-! ## C3: comparing the two condition evaluators -/

/-- The anchored `not\s+\.modules\.(\w+)\.enabled` matcher succeeds, with
capture `name`, on the expression it was written for. -/
theorem tryNotModulesEnabledAt_comp (name : Str) (hne : name ≠ [])
    (hword : ∀ c ∈ name, isWordChar c = true) :
    tryNotModulesEnabledAt (str "not .modules." ++ name ++ str ".enabled") =
      some name := by
  have e1 : stripLit (str "not") (str "not .modules." ++ name ++ str ".enabled") =
      some (str " .modules." ++ name ++ str ".enabled") := rfl
  have e2 : wsPlus (str " .modules." ++ name ++ str ".enabled") =
      some (str ".modules." ++ name ++ str ".enabled") := rfl
  have e3 : stripLit (str ".modules.") (str ".modules." ++ name ++ str ".enabled") =
      some (name ++ str ".enabled") := rfl
  have e4 : takeWord1 (name ++ str ".enabled") = some (name, str ".enabled") :=
    takeWord1_word_break name (str "enabled") hne hword
  have e5 : stripLit (str ".enabled") (str ".enabled") = some [] := rfl
  simp only [tryNotModulesEnabledAt, e1, e2, e3, e4, e5, Option.bind_eq_bind,
    Option.some_bind, Option.pure_def]

/-- The anchored `\.modules\.(\w+)\.enabled` matcher succeeds, with capture
`name`, on the expression it was written for. -/
theorem tryModulesEnabledAt_comp (name : Str) (hne : name ≠ [])
    (hword : ∀ c ∈ name, isWordChar c = true) :
    tryModulesEnabledAt (str ".modules." ++ name ++ str ".enabled") =
      some name := by
  have e3 : stripLit (str ".modules.") (str ".modules." ++ name ++ str ".enabled") =
      some (name ++ str ".enabled") := rfl
  have e4 : takeWord1 (name ++ str ".enabled") = some (name, str ".enabled") :=
    takeWord1_word_break name (str "enabled") hne hword
  have e5 : stripLit (str ".enabled") (str ".enabled") = some [] := rfl
  simp only [tryModulesEnabledAt, e3, e4, e5, Option.bind_eq_bind,
    Option.some_bind, Option.pure_def]

/-- No space occurs in `.modules.<name>.enabled` when `name` consists of
word characters. -/
theorem space_not_mem_inner (name : Str)
    (hword : ∀ c ∈ name, isWordChar c = true) :
    (' ' : Char) ∉ str ".modules." ++ name ++ str ".enabled" := by
  intro hmem
  rcases List.mem_append.mp hmem with h | h
  · rcases List.mem_append.mp h with h' | h'
    · exact absurd h' (by decide)
    · have hw := hword _ h'
      rw [show isWordChar ' ' = false from rfl] at hw
      exact Bool.false_ne_true hw
  · exact absurd h (by decide)

/-- The module-enabled branch of the template evaluator fires on
`.modules.<name>.enabled`, for any positive fuel. -/
theorem evalCondF_modules_enabled_aux (fuel : Nat) (config : DotfilesConfig)
    (platform name : Str) (hne : name ≠ [])
    (hword : ∀ c ∈ name, isWordChar c = true) :
    TemplateParser.evalCondF (fuel + 1)
        (str ".modules." ++ name ++ str ".enabled") config platform =
      moduleEnabled config name := by
  have hshape : str ".modules." ++ name ++ str ".enabled" =
      '.' :: ((str "modules." ++ name ++ str ".enable") ++ ['d']) := by
    rw [show str ".modules." = '.' :: str "modules." from rfl,
      show str ".enabled" = str ".enable" ++ ['d'] from rfl]
    simp
  have htrim : trim (str ".modules." ++ name ++ str ".enabled") =
      str ".modules." ++ name ++ str ".enabled" := by
    rw [hshape]
    exact trim_eq_self_of_ends '.' 'd' _ rfl rfl
  have h1 : startsWithS (str "not ")
      (str ".modules." ++ name ++ str ".enabled") = false := rfl
  have h2 : startsWithS (str "and ")
      (str ".modules." ++ name ++ str ".enabled") = false := rfl
  have h3 : startsWithS (str "or ")
      (str ".modules." ++ name ++ str ".enabled") = false := rfl
  have hceq : strContains (str ".modules." ++ name ++ str ".enabled")
      (str "eq .chezmoi.os") = false :=
    strContains_eq_false_of_mem _ _ ' ' (by decide) (space_not_mem_inner name hword)
  have hcmod : strContains (str ".modules." ++ name ++ str ".enabled")
      (str ".modules.") = true :=
    (strContains_iff _ _).mpr ⟨[], name ++ str ".enabled", by simp⟩
  have hmatch : matchModulesEnabled (str ".modules." ++ name ++ str ".enabled") =
      some name := by
    simp only [matchModulesEnabled]
    exact scanFirst_eq_of_head _ _ _ (tryModulesEnabledAt_comp name hne hword)
  simp only [TemplateParser.evalCondF, htrim, h1, h2, h3, hceq, hcmod, hmatch]
  simp

/-- The `not` branch of the template evaluator on
`not .modules.<name>.enabled` negates the module-enabled branch, for any
fuel at least two. -/
theorem evalCondF_not_modules_enabled_aux (fuel : Nat) (config : DotfilesConfig)
    (platform name : Str) (hne : name ≠ [])
    (hword : ∀ c ∈ name, isWordChar c = true) :
    TemplateParser.evalCondF (fuel + 2)
        (str "not .modules." ++ name ++ str ".enabled") config platform =
      !(moduleEnabled config name) := by
  have hshape : str "not .modules." ++ name ++ str ".enabled" =
      'n' :: ((str "ot .modules." ++ name ++ str ".enable") ++ ['d']) := by
    rw [show str "not .modules." = 'n' :: str "ot .modules." from rfl,
      show str ".enabled" = str ".enable" ++ ['d'] from rfl]
    simp
  have htrimS : trim (str "not .modules." ++ name ++ str ".enabled") =
      str "not .modules." ++ name ++ str ".enabled" := by
    rw [hshape]
    exact trim_eq_self_of_ends 'n' 'd' _ rfl rfl
  have hs1 : startsWithS (str "not ")
      (str "not .modules." ++ name ++ str ".enabled") = true := rfl
  have hdrop : List.drop 4 (str "not .modules." ++ name ++ str ".enabled") =
      str ".modules." ++ name ++ str ".enabled" := rfl
  have hinner := evalCondF_modules_enabled_aux fuel config platform name hne hword
  have hshapeI : str ".modules." ++ name ++ str ".enabled" =
      '.' :: ((str "modules." ++ name ++ str ".enable") ++ ['d']) := by
    rw [show str ".modules." = '.' :: str "modules." from rfl,
      show str ".enabled" = str ".enable" ++ ['d'] from rfl]
    simp
  have htrimI : trim (str ".modules." ++ name ++ str ".enabled") =
      str ".modules." ++ name ++ str ".enabled" := by
    rw [hshapeI]
    exact trim_eq_self_of_ends '.' 'd' _ rfl rfl
  have hunfold : TemplateParser.evalCondF (fuel + 2)
      (str "not .modules." ++ name ++ str ".enabled") config platform =
      !(TemplateParser.evalCondF (fuel + 1)
        (trim ((trim (str "not .modules." ++ name ++ str ".enabled")).drop 4))
        config platform) := by
    rw [show fuel + 2 = (fuel + 1) + 1 from rfl]
    simp only [TemplateParser.evalCondF]
    rw [htrimS]
    simp only [hs1, if_true]
  rw [hunfold, htrimS, hdrop, htrimI, hinner]

/-- C3 (corrected, counterexample).  The two evaluators are not
extensionally equal: on `not eq .chezmoi.os "linux"` at platform `linux`
the ignore-side evaluator hits its `eq .chezmoi.os` branch first (ignoring
the leading `not`) and returns `true`, while the template evaluator
negates the recursive evaluation and returns `false`. -/
theorem evaluators_disagree_on_not_eq :
    IgnoreParser.evaluateCondition (str "not eq .chezmoi.os \"linux\"")
      (cfgShell true) (str "linux") = true ∧
    TemplateParser.evaluateCondition (str "not eq .chezmoi.os \"linux\"")
      (cfgShell true) (str "linux") = false := by
  decide

/-- C3 (amended).  On every expression of the form
`not .modules.<name>.enabled` — `name` a nonempty word — the two condition
evaluators agree, both returning the negation of the module's `enabled`
flag; in general the two evaluators differ (see the counterexample on a
negated platform test). -/
theorem evaluators_agree_on_not_modules_enabled (name : Str)
    (config : DotfilesConfig) (platform : Str) (hne : name ≠ [])
    (hword : ∀ c ∈ name, isWordChar c = true) :
    IgnoreParser.evaluateCondition
        (str "not .modules." ++ name ++ str ".enabled") config platform =
      !(moduleEnabled config name) ∧
    TemplateParser.evaluateCondition
        (str "not .modules." ++ name ++ str ".enabled") config platform =
      !(moduleEnabled config name) := by
  constructor
  · have hg1 : strContains (str "not .modules." ++ name ++ str ".enabled")
        (str "eq .chezmoi.os") = false := by
      have hred : strContains (str "not .modules." ++ name ++ str ".enabled")
          (str "eq .chezmoi.os") =
          strContains (str ".modules." ++ name ++ str ".enabled")
            (str "eq .chezmoi.os") := rfl
      rw [hred]
      exact strContains_eq_false_of_mem _ _ ' ' (by decide)
        (space_not_mem_inner name hword)
    have hg2 : strContains (str "not .modules." ++ name ++ str ".enabled")
        (str ".enabled") = true :=
      (strContains_iff _ _).mpr ⟨str "not .modules." ++ name, [], by simp⟩
    have hg3 : strContains (str "not .modules." ++ name ++ str ".enabled")
        (str "not .modules.") = true :=
      (strContains_iff _ _).mpr ⟨[], name ++ str ".enabled", by simp⟩
    have hm3 : matchNotModulesEnabled
        (str "not .modules." ++ name ++ str ".enabled") = some name := by
      simp only [matchNotModulesEnabled]
      exact scanFirst_eq_of_head _ _ _ (tryNotModulesEnabledAt_comp name hne hword)
    simp only [IgnoreParser.evaluateCondition, hg1, hg2, hg3, hm3]
    simp
  · have hlen : 1 ≤ (str "not .modules." ++ name ++ str ".enabled").length := by
      simp only [List.length_append]
      rw [show (str "not .modules.").length = 13 from rfl]
      omega
    show TemplateParser.evalCondF
        ((str "not .modules." ++ name ++ str ".enabled").length + 1)
        (str "not .modules." ++ name ++ str ".enabled") config platform = _
    rw [show (str "not .modules." ++ name ++ str ".enabled").length + 1 =
        ((str "not .modules." ++ name ++ str ".enabled").length - 1) + 2 from by
      omega]
    exact evalCondF_not_modules_enabled_aux _ config platform name hne hword

/-- Witness for the amended C3 at the module name `shell`. -/
theorem evaluators_agree_on_not_modules_enabled_witness :
    (str "shell" ≠ ([] : Str)) ∧ (∀ c ∈ str "shell", isWordChar c = true) ∧
    IgnoreParser.evaluateCondition (str "not .modules.shell.enabled")
      (cfgShell false) (str "linux") = true ∧
    TemplateParser.evaluateCondition (str "not .modules.shell.enabled")
      (cfgShell false) (str "linux") = true := by
  have h := evaluators_agree_on_not_modules_enabled (str "shell")
    (cfgShell false) (str "linux") (by decide) (by decide)
  exact ⟨by decide, by decide, h.1, h.2⟩

/-! ## C7: deploy paths and the home-directory marker -/

theorem splitOnChar_ne_nil (c : Char) (s : Str) : splitOnChar c s ≠ [] := by
  cases s with
  | nil => simp [splitOnChar]
  | cons d rest =>
    simp only [splitOnChar]
    rcases h : splitOnChar c rest with _ | ⟨p, ps⟩
    · simp
    · by_cases hd : d = c <;> simp [hd]

theorem splitOnChar_mem_not (c : Char) (s : Str) :
    ∀ p ∈ splitOnChar c s, c ∉ p := by
  induction s with
  | nil =>
    intro p hp
    simp only [splitOnChar, List.mem_singleton] at hp
    subst hp
    simp
  | cons d rest ih =>
    intro p hp
    rcases h : splitOnChar c rest with _ | ⟨q, qs⟩
    · exact absurd h (splitOnChar_ne_nil c rest)
    · simp only [splitOnChar, h] at hp
      by_cases hd : d = c
      · rw [if_pos hd] at hp
        rcases List.mem_cons.mp hp with h1 | h1
        · subst h1; simp
        · exact ih p (h ▸ h1)
      · rw [if_neg hd] at hp
        rcases List.mem_cons.mp hp with h1 | h1
        · subst h1
          intro hc
          rcases List.mem_cons.mp hc with h2 | h2
          · exact hd h2.symm
          · exact ih q (h ▸ List.mem_cons_self q qs) h2
        · exact ih p (h ▸ List.mem_cons_of_mem q h1)

theorem splitOnChar_no_sep (c : Char) (x : Str) (hx : c ∉ x) :
    splitOnChar c x = [x] := by
  induction x with
  | nil => rfl
  | cons d t ih =>
    have hdc : ¬(d = c) := fun hdc => hx (hdc ▸ List.mem_cons_self d t)
    have ht : c ∉ t := fun hm => hx (List.mem_cons_of_mem d hm)
    simp only [splitOnChar, ih ht, if_neg hdc]

theorem splitOnChar_append_sep (c : Char) (x t : Str) (hx : c ∉ x) :
    splitOnChar c (x ++ c :: t) = x :: splitOnChar c t := by
  induction x with
  | nil =>
    simp only [List.nil_append]
    rcases h : splitOnChar c t with _ | ⟨p, ps⟩
    · exact absurd h (splitOnChar_ne_nil c t)
    · simp [splitOnChar, h]
  | cons d x' ih =>
    have hdc : ¬(d = c) := fun hdc => hx (hdc ▸ List.mem_cons_self d x')
    have hx' : c ∉ x' := fun hm => hx (List.mem_cons_of_mem d hm)
    simp only [List.cons_append, splitOnChar, List.append_eq, ih hx',
      if_neg hdc]

theorem splitOnChar_intercalate (c : Char) (L : List Str) (hne : L ≠ [])
    (hfree : ∀ x ∈ L, c ∉ x) :
    splitOnChar c (intercalateChar c L) = L := by
  induction L with
  | nil => exact absurd rfl hne
  | cons x xs ih =>
    cases xs with
    | nil =>
      simp only [intercalateChar]
      exact splitOnChar_no_sep c x (hfree x (List.mem_cons_self x []))
    | cons y ys =>
      simp only [intercalateChar]
      rw [splitOnChar_append_sep c x _ (hfree x (List.mem_cons_self _ _))]
      rw [ih (by simp) (fun z hz => hfree z (List.mem_cons_of_mem x hz))]

theorem startsWithS_slash_cons (e : Char) (t : Str) (he : ¬('/' : Char) = e) :
    startsWithS (str "/") (e :: t) = false := by
  rw [show str "/" = ['/'] from rfl]
  simp [startsWithS, he]

theorem dotRepl_not_slash_head (x : Str) (hx : ('/' : Char) ∉ x) :
    startsWithS (str "/") (FileMapper.dotRepl x) = false := by
  cases x with
  | nil => rfl
  | cons e t =>
    by_cases hd : startsWithS (str "dot_") (e :: t) = true
    · simp only [FileMapper.dotRepl, hd, if_true]
      exact startsWithS_slash_cons '.' _ (by decide)
    · simp only [FileMapper.dotRepl]
      rw [if_neg hd]
      exact startsWithS_slash_cons e t
        (fun he => hx (he ▸ List.mem_cons_self e t))

theorem intercalate_dotRepl_head (e : Char) (x' : Str) (xs : List Str)
    (he : ¬('/' : Char) = e) :
    startsWithS (str "/")
      (intercalateChar '/' (((e :: x') :: xs).map FileMapper.dotRepl)) = false := by
  simp only [List.map_cons]
  by_cases hd : startsWithS (str "dot_") (e :: x') = true
  · cases hm : xs.map FileMapper.dotRepl with
    | nil =>
      simp only [FileMapper.dotRepl, hd, if_true, hm, intercalateChar]
      exact startsWithS_slash_cons '.' _ (by decide)
    | cons z zs =>
      simp only [FileMapper.dotRepl, hd, if_true, hm, intercalateChar,
        List.cons_append]
      exact startsWithS_slash_cons '.' _ (by decide)
  · cases hm : xs.map FileMapper.dotRepl with
    | nil =>
      simp only [FileMapper.dotRepl, hm, intercalateChar]
      rw [if_neg hd]
      exact startsWithS_slash_cons e _ he
    | cons z zs =>
      simp only [FileMapper.dotRepl, hm, intercalateChar]
      rw [if_neg hd]
      simp only [List.cons_append]
      exact startsWithS_slash_cons e _ he

theorem strippedFilename_subset (src : Str) :
    ∀ a ∈ FileMapper.strippedFilename src, a ∈ (splitOnChar '/' src).getLastD [] := by
  intro a ha
  simp only [FileMapper.strippedFilename] at ha
  split at ha
  · split at ha
    · exact List.drop_subset _ _ (List.take_subset _ _ ha)
    · exact List.drop_subset _ _ ha
  · split at ha
    · exact List.take_subset _ _ ha
    · exact ha

/-- C7 (corrected, counterexample).  The claim says every input string maps
to a deploy path beginning `~/`; but a source path beginning with `/` is
returned unchanged: `/a` maps to deploy path `/a`. -/
theorem mapFile_absolute_path_not_home :
    (FileMapper.mapFile (str "/a")).deployPath = str "/a" ∧
    startsWithS (str "~/") (FileMapper.mapFile (str "/a")).deployPath = false := by
  decide

/-- The home-prefix step of `mapFile` prefixes `~/` whenever the
pre-home path does not begin with `/`. -/
theorem mapFile_final (d : Str) (hd : startsWithS (str "/") d = false) :
    (if !startsWithS (str "/") d && !startsWithS (str ".") d then str "~/" ++ d
     else if startsWithS (str ".") d then str "~/" ++ d else d) = str "~/" ++ d := by
  rw [hd]
  by_cases h2 : startsWithS (str ".") d = true
  · simp [h2]
  · simp [h2]

/-- C7 (amended).  For every source path that does not begin with `/`, the
deploy path returned by `FileMapper.mapFile` begins with `~/`.  (Absolute
source paths are the one exception, per the counterexample.) -/
theorem mapFile_deployPath_home (sourcePath : Str)
    (h : startsWithS (str "/") sourcePath = false) :
    startsWithS (str "~/") (FileMapper.mapFile sourcePath).deployPath = true := by
  suffices hD : startsWithS (str "/") (FileMapper.preHomePath sourcePath) = false by
    have hdp : (FileMapper.mapFile sourcePath).deployPath =
        (if !startsWithS (str "/") (FileMapper.preHomePath sourcePath) &&
            !startsWithS (str ".") (FileMapper.preHomePath sourcePath) then
          str "~/" ++ FileMapper.preHomePath sourcePath
         else if startsWithS (str ".") (FileMapper.preHomePath sourcePath) then
          str "~/" ++ FileMapper.preHomePath sourcePath
         else FileMapper.preHomePath sourcePath) := rfl
    rw [hdp, mapFile_final _ hD]
    exact startsWithS_append _ _
  cases sourcePath with
  | nil => rfl
  | cons ch s' =>
    have hch : ¬(ch = '/') := by
      intro he
      subst he
      simp [startsWithS, str] at h
    obtain ⟨p, ps, hsplit⟩ : ∃ p ps, splitOnChar '/' s' = p :: ps := by
      rcases hx : splitOnChar '/' s' with _ | ⟨p, ps⟩
      · exact absurd hx (splitOnChar_ne_nil '/' s')
      · exact ⟨p, ps, rfl⟩
    have hsplit2 : splitOnChar '/' (ch :: s') = (ch :: p) :: ps := by
      simp only [splitOnChar, hsplit, if_neg hch]
    have hfree0 : ∀ q ∈ splitOnChar '/' (ch :: s'), ('/' : Char) ∉ q :=
      splitOnChar_mem_not '/' (ch :: s')
    have hfn : ('/' : Char) ∉ FileMapper.strippedFilename (ch :: s') := by
      have h0 : (splitOnChar '/' (ch :: s')).getLastD [] ∈
          splitOnChar '/' (ch :: s') := by
        rw [hsplit2, List.getLastD_cons]
        exact List.getLastD_mem_cons ps (ch :: p)
      intro hc
      exact hfree0 _ h0 (strippedFilename_subset _ _ hc)
    cases ps with
    | nil =>
      have hdir : (splitOnChar '/' (ch :: s')).dropLast = [] := by
        rw [hsplit2]
        rfl
      show startsWithS (str "/") (FileMapper.preHomePath (ch :: s')) = false
      simp only [FileMapper.preHomePath, hdir, List.nil_append,
        intercalateChar]
      rw [splitOnChar_no_sep '/' _ hfn]
      simp only [List.map_cons, List.map_nil, intercalateChar]
      exact dotRepl_not_slash_head _ hfn
    | cons q qs =>
      have hdir : (splitOnChar '/' (ch :: s')).dropLast =
          (ch :: p) :: (q :: qs).dropLast := by
        rw [hsplit2]
        rfl
      have hmemh : ('/' : Char) ∉ ch :: p := by
        apply hfree0
        rw [hsplit2]
        exact List.mem_cons_self _ _
      have hLfree : ∀ x ∈ (ch :: p) ::
          ((q :: qs).dropLast ++ [FileMapper.strippedFilename (ch :: s')]),
          ('/' : Char) ∉ x := by
        intro x hx
        rcases List.mem_cons.mp hx with h1 | h1
        · subst h1
          exact hmemh
        · rcases List.mem_append.mp h1 with h2 | h2
          · have hx2 : x ∈ q :: qs := List.dropLast_subset _ h2
            apply hfree0
            rw [hsplit2]
            exact List.mem_cons_of_mem _ hx2
          · rw [List.mem_singleton] at h2
            subst h2
            exact hfn
      have hround := splitOnChar_intercalate '/'
        ((ch :: p) :: ((q :: qs).dropLast ++
          [FileMapper.strippedFilename (ch :: s')])) (by simp) hLfree
      show startsWithS (str "/") (FileMapper.preHomePath (ch :: s')) = false
      simp only [FileMapper.preHomePath, hdir, List.cons_append, hround]
      exact intercalate_dotRepl_head ch p _ (fun he => hch he.symm)

/-- Witness for the amended C7 at a concrete relative source path. -/
theorem mapFile_deployPath_home_witness :
    startsWithS (str "/") (str "dot_bashrc") = false ∧
    startsWithS (str "~/") (FileMapper.mapFile (str "dot_bashrc")).deployPath = true :=
  ⟨by decide, mapFile_deployPath_home (str "dot_bashrc") (by decide)⟩
